import Mathlib

/-!
Verification development for the loop-nest analysis engine declared in
`src/loop-analysis/nest-analysis.hpp` (class `analysis::NestAnalysis`).

The repository ships only the interface header: apart from `serialize`,
whose body is inline in the header, every member function of
`NestAnalysis` is a declaration without a definition.  Definitions below
that embed those missing bodies are therefore modelled from the design
specification (`spec.md`), and each such definition carries a doc
comment beginning with `Modelled from the spec:` naming the missing
member.  The `serialize` member is translated directly from the header.
-/

namespace NestAnalysisModel

/-- Modelled from the spec: one loop level of a nest (§3 Data model,
"Nest"): an iteration bound, the problem dimension it indexes, its kind
(temporal or spatial), and whether it begins a new storage tile
(`storage_boundary_level_` in the header). The list of levels is ordered
outermost first. -/
structure Level where
  bound : Nat
  dim : Nat
  spatial : Bool
  storageBoundary : Bool
deriving DecidableEq

/-- Modelled from the spec: the per-level per-dimension scale factors of
the Index-to-Point Mapper (§4.1, `per_level_dim_scales_` /
`InitPerLevelDimScales`): the accumulated scale of dimension `d` across
the levels of a (suffix of a) nest. -/
def dimProd : List Level → Nat → Nat
  | [], _ => 1
  | l :: ls, d => (if l.dim = d then l.bound else 1) * dimProd ls d

/-- Modelled from the spec: the affine Index-to-Point Mapper (§4.1,
`IndexToProblemPoint_`): maps a loop-index tuple (one index per level,
outermost first) to the problem-space point it denotes, each level
contributing `index * scale` to the dimension it indexes. `D` is the
number of problem dimensions. -/
def point (D : Nat) : List Level → List Nat → (Fin D → Nat)
  | [], _ => fun _ => 0
  | _ :: ls, [] => point D ls []
  | l :: ls, i :: idxs => fun d =>
      (if l.dim = d.val then i * dimProd ls l.dim else 0) + point D ls idxs d

/-- Modelled from the spec: the set of loop-index tuples enumerated by a
(suffix of a) nest — the iteration space traversed by the recursive
working-set accumulation (§4.2). -/
def tuples : List Level → Finset (List Nat)
  | [] => {[]}
  | l :: ls => (Finset.range l.bound).biUnion
      (fun i => (tuples ls).image (fun idxs => i :: idxs))

/-- Product of the iteration bounds of a nest: the literal size of its
iteration space. -/
def prodBounds : List Level → Nat
  | [] => 1
  | l :: ls => l.bound * prodBounds ls

lemma mem_tuples_cons {l : Level} {ls : List Level} {idxs : List Nat} :
    idxs ∈ tuples (l :: ls) ↔
      ∃ i x, i < l.bound ∧ x ∈ tuples ls ∧ idxs = i :: x := by
  constructor
  · intro h
    obtain ⟨i, hi, hx⟩ := Finset.mem_biUnion.mp h
    obtain ⟨x, hx', hxe⟩ := Finset.mem_image.mp hx
    exact ⟨i, x, Finset.mem_range.mp hi, hx', hxe.symm⟩
  · rintro ⟨i, x, hi, hx, rfl⟩
    exact Finset.mem_biUnion.mpr ⟨i, Finset.mem_range.mpr hi,
      Finset.mem_image.mpr ⟨x, hx, rfl⟩⟩

lemma point_lt {D : Nat} :
    ∀ {ls : List Level} {idxs : List Nat}, idxs ∈ tuples ls →
      ∀ d : Fin D, point D ls idxs d < dimProd ls d.val := by
  intro ls
  induction ls with
  | nil =>
    intro idxs _ d
    simp [point, dimProd]
  | cons l ls ih =>
    intro idxs hmem d
    obtain ⟨i, x, hi, hx, rfl⟩ := mem_tuples_cons.mp hmem
    have hr := ih hx d
    by_cases hc : l.dim = d.val
    · have hP : point D (l :: ls) (i :: x) d = i * dimProd ls d.val + point D ls x d := by
        simp [point, hc]
      rw [hP, dimProd, if_pos hc]
      calc i * dimProd ls d.val + point D ls x d
          < i * dimProd ls d.val + dimProd ls d.val := by omega
        _ = (i + 1) * dimProd ls d.val := by ring
        _ ≤ l.bound * dimProd ls d.val := Nat.mul_le_mul_right _ hi
    · have hP : point D (l :: ls) (i :: x) d = point D ls x d := by
        simp [point, hc]
      rw [hP, dimProd, if_neg hc, one_mul]
      exact hr

lemma mixed_radix_digit_eq {a b i j P : Nat} (ha : a < P) (hb : b < P)
    (h : i * P + a = j * P + b) : i = j ∧ a = b := by
  have hP : 0 < P := Nat.lt_of_le_of_lt (Nat.zero_le a) ha
  have hi : (i * P + a) / P = i := by
    rw [Nat.mul_comm, Nat.mul_add_div hP, Nat.div_eq_of_lt ha, Nat.add_zero]
  have hj : (j * P + b) / P = j := by
    rw [Nat.mul_comm, Nat.mul_add_div hP, Nat.div_eq_of_lt hb, Nat.add_zero]
  have hij : i = j := by rw [← hi, ← hj, h]
  subst hij
  exact ⟨rfl, by omega⟩

lemma point_inj {D : Nat} :
    ∀ {ls : List Level}, (∀ l ∈ ls, l.dim < D) →
      ∀ {x y : List Nat}, x ∈ tuples ls → y ∈ tuples ls →
        point D ls x = point D ls y → x = y := by
  intro ls
  induction ls with
  | nil =>
    intro _ x y hx hy _
    simp [tuples] at hx hy
    rw [hx, hy]
  | cons l ls ih =>
    intro hdim x y hx hy hpt
    obtain ⟨i, a, hi, ha, rfl⟩ := mem_tuples_cons.mp hx
    obtain ⟨j, b, hj, hb, rfl⟩ := mem_tuples_cons.mp hy
    have hld : l.dim < D := hdim l (List.mem_cons_self l ls)
    have h₀ := congrFun hpt ⟨l.dim, hld⟩
    have hsimp : ∀ (k : Nat) (z : List Nat),
        point D (l :: ls) (k :: z) ⟨l.dim, hld⟩
          = k * dimProd ls l.dim + point D ls z ⟨l.dim, hld⟩ := by
      intro k z
      simp [point]
    rw [hsimp, hsimp] at h₀
    have hra := point_lt (D := D) ha ⟨l.dim, hld⟩
    have hrb := point_lt (D := D) hb ⟨l.dim, hld⟩
    obtain ⟨hij, hab⟩ := mixed_radix_digit_eq hra hrb h₀
    subst hij
    have htl : point D ls a = point D ls b := by
      funext d
      have hd := congrFun hpt d
      by_cases hc : l.dim = d.val
      · have hs : ∀ (z : List Nat),
            point D (l :: ls) (i :: z) d
              = i * dimProd ls l.dim + point D ls z d := by
          intro z; simp [point, hc]
        rw [hs, hs] at hd
        exact Nat.add_left_cancel hd
      · have hs : ∀ (z : List Nat),
            point D (l :: ls) (i :: z) d = point D ls z d := by
          intro z; simp [point, hc]
        rw [hs, hs] at hd
        exact hd
    have := ih (fun l' hl' => hdim l' (List.mem_cons_of_mem l hl')) ha hb htl
    rw [this]

lemma card_tuples : ∀ ls : List Level, (tuples ls).card = prodBounds ls := by
  intro ls
  induction ls with
  | nil => simp [tuples, prodBounds]
  | cons l ls ih =>
    rw [show tuples (l :: ls) = (Finset.range l.bound).biUnion
        (fun i => (tuples ls).image (fun idxs => i :: idxs)) from rfl]
    rw [Finset.card_biUnion]
    · have hone : ∀ i ∈ Finset.range l.bound,
          ((tuples ls).image (fun idxs => i :: idxs)).card = prodBounds ls := by
        intro i _
        rw [Finset.card_image_of_injective _ (fun x y h => by
          injection h), ih]
      rw [Finset.sum_congr rfl hone, Finset.sum_const, Finset.card_range,
        smul_eq_mul, prodBounds]
    · intro i _ j _ hij
      rw [Finset.disjoint_left]
      intro z hzi hzj
      obtain ⟨x, _, hxe⟩ := Finset.mem_image.mp hzi
      obtain ⟨y, _, hye⟩ := Finset.mem_image.mp hzj
      rw [← hxe] at hye
      injection hye with h1 _
      exact hij h1.symm

/-- Modelled from the spec: for the Spatial Delta & Multicast/Scatter
Analyzer (§4.3, `ComputeAccurateMulticastedAccesses`, missing body), the
set of spatial elements that require problem point `p`, given the
per-element spatial deltas (one operation space per spatial element). -/
def req {α : Type} [DecidableEq α] (deltas : List (Finset α)) (p : α) :
    Finset Nat :=
  (Finset.range deltas.length).filter (fun e => p ∈ deltas.getD e ∅)

/-- Modelled from the spec: the multicast degree of a problem point —
the number of spatial elements that require it (§4.3 accurate mode:
"for every problem point, enumerate exactly which spatial elements
require it"). -/
def multicastDeg {α : Type} [DecidableEq α] (deltas : List (Finset α))
    (p : α) : Nat :=
  (req deltas p).card

/-- Modelled from the spec: the union of all per-element spatial deltas —
every problem point touched by the spatial group (§4.3). -/
def unionDeltas {α : Type} [DecidableEq α] (deltas : List (Finset α)) :
    Finset α :=
  deltas.foldr (· ∪ ·) ∅

/-- Modelled from the spec: accurate-mode access bucket (§4.3, the
`accesses` out-parameter of `ComputeAccurateMulticastedAccesses`):
the number of problem points whose multicast degree is exactly `m`;
each such point is fetched once from the parent storage level. -/
def accessesAt {α : Type} [DecidableEq α] (deltas : List (Finset α))
    (m : Nat) : Nat :=
  ((unionDeltas deltas).filter (fun p => multicastDeg deltas p = m)).card

/-- Modelled from the spec: accurate-mode scatter factor for multicast
degree `m` (§4.3, the `scatter_factors` out-parameter): the number of
distinct element groups that points of degree `m` are delivered to. -/
def scatterAt {α : Type} [DecidableEq α] (deltas : List (Finset α))
    (m : Nat) : Nat :=
  (((unionDeltas deltas).filter (fun p => multicastDeg deltas p = m)).image
    (req deltas)).card

/-- Modelled from the spec: the total access count charged to the parent
storage level by a spatial level in accurate multicast mode — the sum of
all access buckets over multicast degrees `1..fanout` (§4.3). -/
def parentAccesses {α : Type} [DecidableEq α]
    (deltas : List (Finset α)) : Nat :=
  Finset.sum (Finset.range deltas.length) (fun k => accessesAt deltas (k + 1))

/-- Modelled from the spec: the on-chip hop distance of spatial element
`e` from the fetch point, for a grid of horizontal size `h` (§4.4
Network Link-Transfer Estimator; `horizontal_sizes_` in the header). -/
def hopsOf (h e : Nat) : Nat := e % h + e / h

/-- Modelled from the spec: hop count needed to deliver one multicast
point to a group `E` of spatial elements — the distance to the furthest
requiring element (§4.4: "hop count increases with spatial distance
between the fetching element and the elements it forwards to"). -/
def groupHops (h : Nat) (E : Finset Nat) : Nat := E.sup (hopsOf h)

/-- Modelled from the spec: the `cumulative_hops` contribution of one
problem point — hop count to the set of spatial elements that share it
(§4.4, consuming the spatial deltas of §4.3). -/
def pointHops {α : Type} [DecidableEq α] (h : Nat)
    (deltas : List (Finset α)) (p : α) : Nat :=
  groupHops h (req deltas p)

lemma mem_unionDeltas {α : Type} [DecidableEq α]
    {deltas : List (Finset α)} {p : α} :
    p ∈ unionDeltas deltas ↔ ∃ d ∈ deltas, p ∈ d := by
  induction deltas with
  | nil => simp [unionDeltas]
  | cons d ds ih =>
    rw [show unionDeltas (d :: ds) = d ∪ unionDeltas ds from rfl]
    simp [ih]

lemma getD_replicate {α : Type} (S : α) (dflt : α) :
    ∀ (N e : Nat), (List.replicate N S).getD e dflt
      = if e < N then S else dflt := by
  intro N
  induction N with
  | zero => intro e; simp
  | succ n ih =>
    intro e
    cases e with
    | zero => simp [List.replicate]
    | succ k =>
      rw [List.replicate, show ((S :: List.replicate n S).getD (k + 1) dflt)
        = (List.replicate n S).getD k dflt from rfl, ih k]
      simp [Nat.succ_lt_succ_iff]

lemma unionDeltas_replicate {α : Type} [DecidableEq α] (S : Finset α) :
    ∀ (N : Nat), 1 ≤ N → unionDeltas (List.replicate N S) = S := by
  intro N
  induction N with
  | zero => intro h; omega
  | succ n ih =>
    intro _
    cases n with
    | zero => simp [unionDeltas]
    | succ m =>
      rw [List.replicate,
        show unionDeltas (S :: List.replicate (m + 1) S)
          = S ∪ unionDeltas (List.replicate (m + 1) S) from rfl,
        ih (by omega), Finset.union_self]

lemma req_replicate {α : Type} [DecidableEq α] {S : Finset α} {p : α}
    (hp : p ∈ S) (N : Nat) :
    req (List.replicate N S) p = Finset.range N := by
  apply Finset.filter_true_of_mem ?_ |>.trans ?_
  · intro e he
    rw [List.length_replicate] at he
    rw [getD_replicate, if_pos (Finset.mem_range.mp he)]
    exact hp
  · rw [List.length_replicate]

/-- Modelled from the spec: the operation space of the loop-nest subtree
`ls` — the set of problem points touched across its whole iteration
space (§4.2, the result of `ComputeWorkingSetsRecursive_`, missing
body). -/
def fullSpace (D : Nat) (ls : List Level) : Finset (Fin D → Nat) :=
  (tuples ls).image (point D ls)

/-- Modelled from the spec: the operation space touched by one iteration
`i` of the outermost level `l` of the subtree `l :: rest` — one
per-iteration (or per-spatial-element) delta source (§4.2/§4.3,
`FillSpatialDeltas`). -/
def subSpace (D : Nat) (l : Level) (rest : List Level) (i : Nat) :
    Finset (Fin D → Nat) :=
  (tuples rest).image (fun x => point D (l :: rest) (i :: x))

/-- Modelled from the spec: the access count reported at the outermost
storage level (§4.2 `ComputeTemporalWorkingSet` /
`ComputeSpatialWorkingSet`, missing bodies).  At a temporal level, each
iteration is charged with the points absent from the immediately
preceding iteration's operation space (delta-based reuse: the first
iteration has no predecessor and is charged in full).  At a spatial
level, the per-element deltas are handed to the accurate
multicast/scatter accounting instead. -/
def accOut (D : Nat) : List Level → Nat
  | [] => 1
  | l :: rest =>
    if l.spatial then
      parentAccesses ((List.range l.bound).map (fun i => subSpace D l rest i))
    else
      Finset.sum (Finset.range l.bound) (fun i =>
        ((subSpace D l rest i) \
          (if i = 0 then ∅ else subSpace D l rest (i - 1))).card)

/-- Modelled from the spec: the projection of a problem point onto a
data space (§6: data spaces have "index-to-access projection
functions"); a data space is identified with the list of problem
dimensions it depends on. -/
def proj (D : Nat) (dims : List Nat) (p : Fin D → Nat) : List Nat :=
  dims.map (fun d => if h : d < D then p ⟨d, h⟩ else 0)

/-- Modelled from the spec: the working-set size reported for data space
`dims` at the storage level whose tiling region roots the subtree `ls`
(§4.2 output, `GetWorkingSetSizes_LTW`): the number of distinct
data-space points touched by the subtree. -/
def wsSize (D : Nat) (dims : List Nat) (ls : List Level) : Nat :=
  ((fullSpace D ls).image (proj D dims)).card

lemma subSpace_card (D : Nat) {l : Level} {rest : List Level}
    (hdim : ∀ l' ∈ l :: rest, l'.dim < D) {i : Nat} (hi : i < l.bound) :
    (subSpace D l rest i).card = prodBounds rest := by
  rw [subSpace, Finset.card_image_of_injOn, card_tuples]
  intro a ha b hb hab
  have hmem : ∀ {z : List Nat}, z ∈ tuples rest → i :: z ∈ tuples (l :: rest) :=
    fun hz => mem_tuples_cons.mpr ⟨i, _, hi, hz, rfl⟩
  have := point_inj hdim (hmem ha) (hmem hb) hab
  injection this

lemma subSpace_disjoint (D : Nat) {l : Level} {rest : List Level}
    (hdim : ∀ l' ∈ l :: rest, l'.dim < D) {i j : Nat} (hi : i < l.bound)
    (hj : j < l.bound) (hij : i ≠ j) :
    Disjoint (subSpace D l rest i) (subSpace D l rest j) := by
  rw [Finset.disjoint_left]
  intro p hp hq
  obtain ⟨a, ha, hae⟩ := Finset.mem_image.mp hp
  obtain ⟨b, hb, hbe⟩ := Finset.mem_image.mp hq
  rw [← hae] at hbe
  have := point_inj hdim
    (mem_tuples_cons.mpr ⟨j, b, hj, hb, rfl⟩)
    (mem_tuples_cons.mpr ⟨i, a, hi, ha, rfl⟩) hbe
  injection this with h1 _
  exact hij h1.symm

lemma card_fullSpace (D : Nat) {ls : List Level}
    (hdim : ∀ l ∈ ls, l.dim < D) :
    (fullSpace D ls).card = prodBounds ls := by
  rw [fullSpace, Finset.card_image_of_injOn, card_tuples]
  intro a ha b hb hab
  exact point_inj hdim ha hb hab

lemma accOut_temporal (D : Nat) {ls : List Level}
    (hdim : ∀ l ∈ ls, l.dim < D) (htemp : ∀ l ∈ ls, l.spatial = false) :
    accOut D ls = prodBounds ls := by
  cases ls with
  | nil => rfl
  | cons l rest =>
    have hsp : l.spatial = false := htemp l (List.mem_cons_self l rest)
    rw [show accOut D (l :: rest)
        = if l.spatial then
            parentAccesses ((List.range l.bound).map (fun i => subSpace D l rest i))
          else
            Finset.sum (Finset.range l.bound) (fun i =>
              ((subSpace D l rest i) \
                (if i = 0 then ∅ else subSpace D l rest (i - 1))).card)
      from rfl, hsp]
    simp only [Bool.false_eq_true, if_false]
    have hterm : ∀ i ∈ Finset.range l.bound,
        ((subSpace D l rest i) \
          (if i = 0 then ∅ else subSpace D l rest (i - 1))).card
          = prodBounds rest := by
      intro i hi
      have hi' := Finset.mem_range.mp hi
      by_cases h0 : i = 0
      · rw [if_pos h0, Finset.sdiff_empty, subSpace_card D hdim hi']
      · rw [if_neg h0,
          sdiff_eq_self_iff_disjoint'.mpr
            (subSpace_disjoint D hdim hi' (by omega) (by omega)),
          subSpace_card D hdim hi']
    rw [Finset.sum_congr rfl hterm, Finset.sum_const, Finset.card_range,
      smul_eq_mul, prodBounds]

lemma fullSpace_cons_subset (D : Nat) {l : Level} {rest : List Level}
    (hb : 1 ≤ l.bound) : fullSpace D rest ⊆ fullSpace D (l :: rest) := by
  intro p hp
  obtain ⟨x, hx, rfl⟩ := Finset.mem_image.mp hp
  refine Finset.mem_image.mpr ⟨0 :: x, mem_tuples_cons.mpr ⟨0, x, hb, hx, rfl⟩, ?_⟩
  funext d
  simp [point]

lemma fullSpace_drop_subset (D : Nat) :
    ∀ (ls : List Level), (∀ l ∈ ls, 1 ≤ l.bound) →
      ∀ k, fullSpace D (ls.drop k) ⊆ fullSpace D ls := by
  intro ls
  induction ls with
  | nil => intro _ k; simp
  | cons l rest ih =>
    intro hb k
    cases k with
    | zero => exact Finset.Subset.refl _
    | succ k =>
      calc fullSpace D ((l :: rest).drop (k + 1))
          = fullSpace D (rest.drop k) := rfl
        _ ⊆ fullSpace D rest :=
            ih (fun l' hl' => hb l' (List.mem_cons_of_mem l hl')) k
        _ ⊆ fullSpace D (l :: rest) :=
            fullSpace_cons_subset D (hb l (List.mem_cons_self l rest))

/-- Modelled from the spec: the workload configuration bound at `Init`
(§6): the number of problem dimensions and the data spaces, each given
by the list of problem dimensions it depends on. -/
structure Workload where
  numDims : Nat
  dataSpaces : List (List Nat)
deriving DecidableEq

/-- Modelled from the spec: the Output Assembler (§4.5,
`CollectWorkingSets`, missing body): one `(working-set size, access
count)` tile record per storage-boundary level for one data space,
ordered from innermost to outermost storage level. -/
def tileStats (D : Nat) (dims : List Nat) : List Level → List (Nat × Nat)
  | [] => []
  | l :: rest =>
    tileStats D dims rest ++
      (if l.storageBoundary then
        [(wsSize D dims (l :: rest), accOut D (l :: rest))]
      else [])

/-- Modelled from the spec: the complete tile-info result of one
analysis (§4.5, `GetWorkingSets`): per data space, the list of tile
records at each storage-boundary level. -/
def analyzeNest (w : Workload) (n : List Level) : List (List (Nat × Nat)) :=
  w.dataSpaces.map (fun ds => tileStats w.numDims ds n)

/-- Modelled from the spec: the body-info statistic (§3 "Body info":
per-iteration operation counts of the innermost computational body) —
one elementary operation per iteration-space point. -/
def bodyAccessCount (w : Workload) (n : List Level) : Nat :=
  prodBounds n

/-- Modelled from the spec: the per-level live state rebuilt by
`InitializeLiveState` (missing body) from the nest — current index and
accumulated bound per level (§3 "Loop-level live state"). -/
def buildLiveState (n : List Level) : List (Nat × Nat) :=
  n.map (fun l => (0, l.bound))

/-- Modelled from the spec: the memoization table built by
`InitPerLevelDimScales` (missing body): per level, per problem
dimension, the accumulated scale of the levels inside it (§4.1). -/
def dimScalesTable (w : Workload) (n : List Level) : List (List Nat) :=
  (List.range n.length).map (fun i =>
    (List.range w.numDims).map (fun d => dimProd (n.drop (i + 1)) d))

/-- Modelled from the spec: the mutable state of one `NestAnalysis`
instance (the private fields of the class in the header):
`cached_nest`, the live state (`nest_state_`, `indices_`,
`spatial_id_`), the results (`working_sets_`, `body_info_`), the
memoization buffers (`per_level_dim_scales_`) and the
`working_sets_computed_` flag. -/
structure EngineState where
  cachedNest : List Level
  workload : Workload
  nestState : List (Nat × Nat)
  indices : List Nat
  spatialId : Nat
  workingSets : List (List (Nat × Nat))
  bodyInfo : Nat
  dimScales : List (List Nat)
  workingSetsComputed : Bool
deriving DecidableEq

/-- A freshly constructed `NestAnalysis` instance. -/
def initialState : EngineState :=
  { cachedNest := []
    workload := { numDims := 0, dataSpaces := [] }
    nestState := []
    indices := []
    spatialId := 0
    workingSets := []
    bodyInfo := 0
    dimScales := []
    workingSetsComputed := false }

/-- Modelled from the spec: `Init(workload, nest)` (§6): binds the
workload and the nest, rebuilds the live state and all memoization
tables from them from scratch, and clears the computed flag. -/
def initEngine (s : EngineState) (w : Workload) (n : List Level) :
    EngineState :=
  { cachedNest := n
    workload := w
    nestState := buildLiveState n
    indices := List.replicate n.length 0
    spatialId := 0
    workingSets := []
    bodyInfo := 0
    dimScales := dimScalesTable w n
    workingSetsComputed := false }

/-- Modelled from the spec: `Reset()` (§6): discards the live state and
the computed results so the instance can be reused, while the nest copy,
the workload binding and the memoization buffers are retained. -/
def resetEngine (s : EngineState) : EngineState :=
  { s with
    nestState := []
    indices := []
    spatialId := 0
    workingSets := []
    bodyInfo := 0
    workingSetsComputed := false }

/-- Modelled from the spec: `GetWorkingSets()` (§4.5/§6): triggers the
recursive analysis if it has not run yet, stores its results and sets
`working_sets_computed_`; afterwards a pure read of the stored
results. -/
def getWorkingSets (s : EngineState) :
    EngineState × List (List (Nat × Nat)) :=
  if s.workingSetsComputed then (s, s.workingSets)
  else
    ({ s with
        workingSets := analyzeNest s.workload s.cachedNest
        bodyInfo := bodyAccessCount s.workload s.cachedNest
        workingSetsComputed := true },
      analyzeNest s.workload s.cachedNest)

/-- Modelled from the spec: `GetBodyInfo()` (§6): triggers the analysis
if needed and returns the body statistics. -/
def getBodyInfo (s : EngineState) : EngineState × Nat :=
  if s.workingSetsComputed then (s, s.bodyInfo)
  else ((getWorkingSets s).1, ((getWorkingSets s).1).bodyInfo)

/-- The "not yet computed" precondition failure of §7
(query-before-compute). -/
inductive QueryError where
  | notComputed
deriving DecidableEq

/-- Modelled from the spec: `GetWorkingSetSizes_LTW() const` (§4.5/§7):
a const query that cannot run the traversal itself, so it reports the
query-before-compute precondition failure when `working_sets_computed_`
is false, and otherwise reads the sizes out of the stored results. -/
def getWorkingSetSizes_LTW (s : EngineState) :
    Except QueryError (List (List Nat)) :=
  if s.workingSetsComputed then
    Except.ok (s.workingSets.map (fun t => t.map Prod.fst))
  else Except.error QueryError.notComputed

/-- The configuration error of §7 reported by `Init` on inconsistent
spatial/storage annotations. -/
inductive ConfigError where
  | inconsistentSpatialAnnotations
deriving DecidableEq

/-- Modelled from the spec: the derived master-spatial flags (§3 Level
annotations, `master_spatial_level_`): a level is master-spatial when it
is spatial and sits at the transition point from temporal to spatial
nests — its next-inner level is temporal, or it is the innermost
level. -/
def markMaster : List Level → List (Level × Bool)
  | [] => []
  | [l] => [(l, l.spatial)]
  | l :: l' :: rest => (l, l.spatial && !l'.spatial) :: markMaster (l' :: rest)

/-- Splits the marked levels into contiguous tiling regions, a new
region starting at every storage-boundary level (§3 invariant: "the set
of storage-boundary levels partitions the nest into contiguous tiling
regions"). -/
def splitRegionsGo (cur : List (Level × Bool)) :
    List (Level × Bool) → List (List (Level × Bool))
  | [] => [cur.reverse]
  | x :: rest =>
    if x.1.storageBoundary then cur.reverse :: splitRegionsGo [x] rest
    else splitRegionsGo (x :: cur) rest

/-- The tiling regions of a nest, each carrying the derived
master-spatial flag of its levels. -/
def regions (ls : List Level) : List (List (Level × Bool)) :=
  match markMaster ls with
  | [] => []
  | x :: rest => splitRegionsGo [x] rest

/-- Modelled from the spec: the declared spatial fanout of a tiling
region (§3/`InitSpatialFanouts`): the product of the bounds of its
spatial levels — the number of enumerable spatial elements. -/
def regionFanout (R : List (Level × Bool)) : Nat :=
  (R.filter (fun x => x.1.spatial)).foldr (fun x acc => x.1.bound * acc) 1

/-- Modelled from the spec: the per-region consistency check run by
`InitializeNestProperties` (missing body): a region with spatial
structure must contain exactly one master-spatial level and its fanout
must enumerate at least one element (§3 invariants, §7 configuration
errors). -/
def regionOk (R : List (Level × Bool)) : Bool :=
  !(R.any (fun x => x.1.spatial)) ||
    ((R.countP (fun x => x.2) == 1) && (regionFanout R != 0))

/-- Modelled from the spec: the configuration-error behaviour of
`Init(workload, nest)` (§6/§7, missing body): fails with a
configuration error exactly when some tiling region violates the
spatial/storage annotation invariants. -/
def initModel (ls : List Level) : Except ConfigError Unit :=
  if (regions ls).all regionOk then Except.ok ()
  else Except.error ConfigError.inconsistentSpatialAnnotations

/-- The §3 invariants on spatial/storage annotations, stated
declaratively: every tiling region that contains a spatial level has
exactly one master-spatial level and only positive spatial bounds. -/
def WellFormedNest (ls : List Level) : Prop :=
  ∀ R ∈ regions ls, (∃ x ∈ R, x.1.spatial = true) →
    (R.countP (fun x => x.2) = 1 ∧ ∀ x ∈ R, x.1.spatial = true → 1 ≤ x.1.bound)

/-- The archive contents written by `NestAnalysis::serialize`: the three
serialized fields, each optional because a version other than 0 writes
nothing (nest-analysis.hpp, lines 156-166). -/
structure ArchiveData where
  nestStateF : Option (List (Nat × Nat))
  workingSetsF : Option (List (List (Nat × Nat)))
  computedF : Option Bool
deriving DecidableEq

/-- An archive none of whose fields were written. -/
def emptyArchive : ArchiveData :=
  { nestStateF := none, workingSetsF := none, computedF := none }

/-- Save direction of `NestAnalysis::serialize` (nest-analysis.hpp,
lines 156-166): when `version == 0` it writes `nest_state_`,
`working_sets_` and `working_sets_computed_`; for any other version the
body is skipped and nothing is written. -/
def serializeSave (s : EngineState) (version : Nat) : ArchiveData :=
  if version = 0 then
    { nestStateF := some s.nestState
      workingSetsF := some s.workingSets
      computedF := some s.workingSetsComputed }
  else emptyArchive

/-- Load direction of `NestAnalysis::serialize` (same inline body): when
`version == 0` it reads the three fields into the receiving instance;
for any other version the body is skipped and the receiver is left
unchanged. -/
def serializeLoad (s : EngineState) (a : ArchiveData) (version : Nat) :
    EngineState :=
  if version = 0 then
    { s with
      nestState := a.nestStateF.getD s.nestState
      workingSets := a.workingSetsF.getD s.workingSets
      workingSetsComputed := a.computedF.getD s.workingSetsComputed }
  else s

/-- C1: for every nest and workload, running `Init` followed by
`GetWorkingSets()` a second time on the same nest and workload produces
tile-info results identical to the first run, and the results do not
depend on the prior history of the instance. -/
theorem analysis_deterministic (s t : EngineState) (w : Workload)
    (n : List Level) :
    (getWorkingSets (initEngine ((getWorkingSets (initEngine s w n)).1) w n)).2
      = (getWorkingSets (initEngine s w n)).2
    ∧ (getWorkingSets (initEngine s w n)).2
      = (getWorkingSets (initEngine t w n)).2 :=
  ⟨rfl, rfl⟩

/-- C2: for a nest whose levels are all temporal, the access count
reported at the outermost storage level equals the number of points of
the iteration space, the product of all loop bounds — every point is
visited and counted exactly once. -/
theorem temporal_nest_outermost_accesses (D : Nat) (ls : List Level)
    (hdim : ∀ l ∈ ls, l.dim < D) (htemp : ∀ l ∈ ls, l.spatial = false) :
    accOut D ls = prodBounds ls ∧ (fullSpace D ls).card = prodBounds ls :=
  ⟨accOut_temporal D hdim htemp, card_fullSpace D hdim⟩

theorem temporal_nest_outermost_accesses_witness :
    (∀ l ∈ [Level.mk 2 0 false true, Level.mk 3 0 false false], l.dim < 1)
    ∧ (∀ l ∈ [Level.mk 2 0 false true, Level.mk 3 0 false false],
        l.spatial = false)
    ∧ (accOut 1 [Level.mk 2 0 false true, Level.mk 3 0 false false]
        = prodBounds [Level.mk 2 0 false true, Level.mk 3 0 false false]
      ∧ (fullSpace 1 [Level.mk 2 0 false true, Level.mk 3 0 false false]).card
        = prodBounds [Level.mk 2 0 false true, Level.mk 3 0 false false]) :=
  ⟨by decide, by decide,
    temporal_nest_outermost_accesses 1
      [Level.mk 2 0 false true, Level.mk 3 0 false false]
      (by decide) (by decide)⟩

/-- C3: for every analyzed nest, data space and pair of adjacent
storage-boundary levels, the working-set size reported at the inner
(deeper) storage level is at most the working-set size reported at the
next-outer storage level. -/
theorem ws_monotone_up_hierarchy (D : Nat) (dims : List Nat)
    (ls : List Level) (i j : Nat) (hij : i ≤ j)
    (hb : ∀ l ∈ ls, 1 ≤ l.bound)
    (hbi : ls[i]?.map Level.storageBoundary = some true)
    (hbj : ls[j]?.map Level.storageBoundary = some true)
    (hadj : ∀ k, k < j → i < k →
      ls[k]?.map Level.storageBoundary ≠ some true) :
    wsSize D dims (ls.drop j) ≤ wsSize D dims (ls.drop i) := by
  have hdj : ls.drop j = (ls.drop i).drop (j - i) := by
    rw [List.drop_drop]
    congr 1
    omega
  rw [hdj, wsSize, wsSize]
  exact Finset.card_le_card (Finset.image_subset_image
    (fullSpace_drop_subset D (ls.drop i)
      (fun l hl => hb l (List.mem_of_mem_drop hl)) (j - i)))

theorem ws_monotone_up_hierarchy_witness :
    (∀ l ∈ [Level.mk 2 0 false true, Level.mk 3 0 false true], 1 ≤ l.bound)
    ∧ wsSize 1 [0] ([Level.mk 2 0 false true, Level.mk 3 0 false true].drop 1)
      ≤ wsSize 1 [0] ([Level.mk 2 0 false true, Level.mk 3 0 false true].drop 0) :=
  ⟨by decide,
    ws_monotone_up_hierarchy 1 [0]
      [Level.mk 2 0 false true, Level.mk 3 0 false true] 0 1
      (by omega) (by decide) (by decide) (by decide)
      (fun k hk hk0 => absurd (Nat.lt_of_lt_of_le hk0 (Nat.le_of_lt_succ hk))
        (Nat.lt_irrefl 0))⟩

/-- C6: querying results before the traversal has run is reported as a
"not yet computed" precondition failure by the const query
`GetWorkingSetSizes_LTW()`, while `GetWorkingSets()` and `GetBodyInfo()`
trigger the analysis first and return fresh, not stale, results. -/
theorem query_before_compute (s : EngineState)
    (h : s.workingSetsComputed = false) :
    getWorkingSetSizes_LTW s = Except.error QueryError.notComputed
    ∧ (getWorkingSets s).2 = analyzeNest s.workload s.cachedNest
    ∧ (getBodyInfo s).2 = bodyAccessCount s.workload s.cachedNest := by
  refine ⟨?_, ?_, ?_⟩ <;>
    simp [getWorkingSetSizes_LTW, getWorkingSets, getBodyInfo, h]

theorem query_before_compute_witness :
    getWorkingSetSizes_LTW initialState = Except.error QueryError.notComputed
    ∧ (getWorkingSets initialState).2
      = analyzeNest initialState.workload initialState.cachedNest
    ∧ (getBodyInfo initialState).2
      = bodyAccessCount initialState.workload initialState.cachedNest :=
  query_before_compute initialState rfl

/-- C7: `Reset()` clears the live state, the stored results and the
computed flag while retaining the memoization buffers; after
`Reset()`+`Init()` the live state is rebuilt from scratch and the
results are independent of anything the instance did before. -/
theorem reset_discards_live_state (s : EngineState) (w : Workload)
    (n : List Level) :
    (resetEngine s).workingSetsComputed = false
    ∧ (resetEngine s).nestState = []
    ∧ (resetEngine s).indices = []
    ∧ (resetEngine s).workingSets = []
    ∧ (resetEngine s).dimScales = s.dimScales
    ∧ (resetEngine s).cachedNest = s.cachedNest
    ∧ (initEngine (resetEngine s) w n).nestState = buildLiveState n
    ∧ (initEngine (resetEngine s) w n).dimScales = dimScalesTable w n
    ∧ (getWorkingSets (initEngine (resetEngine s) w n)).2
      = (getWorkingSets (initEngine initialState w n)).2 :=
  ⟨rfl, rfl, rfl, rfl, rfl, rfl, rfl, rfl, rfl⟩

/-- C10: once the working sets have been computed, `GetWorkingSets()`
and `GetBodyInfo()` are pure reads of the stored results — they leave
the state untouched and return the same values on every repeat — and
only `Init` or `Reset` clears the computed flag again. -/
theorem computed_flag_pure_reads (s : EngineState) (w : Workload)
    (n : List Level) :
    getWorkingSets ((getWorkingSets s).1)
      = ((getWorkingSets s).1, (getWorkingSets s).2)
    ∧ getBodyInfo ((getWorkingSets s).1)
      = ((getWorkingSets s).1, ((getWorkingSets s).1).bodyInfo)
    ∧ ((getWorkingSets s).1).workingSetsComputed = true
    ∧ (initEngine s w n).workingSetsComputed = false
    ∧ (resetEngine s).workingSetsComputed = false := by
  by_cases hc : s.workingSetsComputed = true
  · refine ⟨?_, ?_, ?_, rfl, rfl⟩ <;> simp [getWorkingSets, getBodyInfo, hc]
  · refine ⟨?_, ?_, ?_, rfl, rfl⟩ <;> simp [getWorkingSets, getBodyInfo, hc]

lemma regionFanout_ne_zero {R : List (Level × Bool)} :
    regionFanout R ≠ 0 ↔ ∀ x ∈ R, x.1.spatial = true → x.1.bound ≠ 0 := by
  have hfold : ∀ L : List (Level × Bool),
      (L.foldr (fun x acc => x.1.bound * acc) 1 ≠ 0) ↔ ∀ x ∈ L, x.1.bound ≠ 0 := by
    intro L
    induction L with
    | nil => simp
    | cons a L ih =>
      simp only [List.foldr_cons, List.mem_cons, Nat.mul_ne_zero_iff, ih]
      constructor
      · rintro ⟨h1, h2⟩ x (rfl | hx)
        · exact h1
        · exact h2 x hx
      · intro h
        exact ⟨h a (Or.inl rfl), fun x hx => h x (Or.inr hx)⟩
  rw [regionFanout, hfold]
  constructor
  · intro h x hx hsp
    exact h x (List.mem_filter.mpr ⟨hx, hsp⟩)
  · intro h x hx
    obtain ⟨hx', hsp⟩ := List.mem_filter.mp hx
    exact h x hx' hsp

lemma regionOk_iff (R : List (Level × Bool)) :
    regionOk R = true ↔ ((∃ x ∈ R, x.1.spatial = true) →
      (R.countP (fun x => x.2) = 1 ∧
        ∀ x ∈ R, x.1.spatial = true → 1 ≤ x.1.bound)) := by
  by_cases hA : R.any (fun x => x.1.spatial) = true
  · have hex : ∃ x ∈ R, x.1.spatial = true := List.any_eq_true.mp hA
    rw [regionOk, hA]
    simp only [Bool.not_true, Bool.false_or, Bool.and_eq_true, beq_iff_eq,
      bne_iff_ne]
    constructor
    · rintro ⟨h1, h2⟩ _
      refine ⟨h1, fun x hx hsp => ?_⟩
      have := regionFanout_ne_zero.mp h2 x hx hsp
      omega
    · intro h
      obtain ⟨h1, h2⟩ := h hex
      refine ⟨h1, regionFanout_ne_zero.mpr (fun x hx hsp => ?_)⟩
      have := h2 x hx hsp
      omega
  · have hA' : R.any (fun x => x.1.spatial) = false := by
      revert hA
      cases R.any (fun x => x.1.spatial) <;> simp
    have hnex : ¬ ∃ x ∈ R, x.1.spatial = true := by
      rintro ⟨x, hx, hsp⟩
      exact hA (List.any_eq_true.mpr ⟨x, hx, hsp⟩)
    rw [regionOk, hA']
    simp [hnex]

/-- C5: the configuration check of `Init(workload, nest)` succeeds
exactly on well-formed nests: it fails with a configuration error
whenever some tiling region with spatial structure lacks a unique
master-spatial level or declares a fanout with no enumerable
elements. -/
theorem init_config_error_iff (ls : List Level) :
    initModel ls = Except.ok () ↔ WellFormedNest ls := by
  rw [initModel, WellFormedNest]
  by_cases hall : (regions ls).all regionOk = true
  · rw [if_pos hall]
    constructor
    · intro _ R hR hsp
      exact (regionOk_iff R).mp (List.all_eq_true.mp hall R hR) hsp
    · intro _
      rfl
  · rw [if_neg hall]
    constructor
    · intro h
      exact absurd h (by simp)
    · intro hwf
      exact absurd (List.all_eq_true.mpr
        (fun R hR => (regionOk_iff R).mpr (fun hsp => hwf R hR hsp))) hall

theorem init_config_error_iff_witness :
    initModel [Level.mk 4 0 false true, Level.mk 2 1 true false]
      = Except.ok () :=
  (init_config_error_iff [Level.mk 4 0 false true, Level.mk 2 1 true false]).mpr
    (by unfold WellFormedNest; decide)

/-- C8 counterexample: `serialize` is not backward-readable across
versions — at version 1 the save direction writes nothing at all, and a
load at version 1 silently loses `working_sets_computed_` (the saved
instance had it `true`, the loaded one reads back `false`). -/
theorem serialize_version_counterexample :
    serializeSave { initialState with workingSetsComputed := true } 1
      = emptyArchive
    ∧ ({ initialState with workingSetsComputed := true } :
        EngineState).workingSetsComputed = true
    ∧ (serializeLoad initialState
        (serializeSave { initialState with workingSetsComputed := true } 1)
        1).workingSetsComputed = false :=
  ⟨rfl, rfl, rfl⟩

/-- C8 amended: `serialize` handles only version 0: at version 0 the
three serialized fields (`nest_state_`, `working_sets_`,
`working_sets_computed_`) round-trip faithfully, and for every other
version the save direction writes nothing and the load direction leaves
the receiving instance unchanged. -/
theorem serialize_version_zero_only (s r : EngineState) (v : Nat)
    (hv : v ≠ 0) :
    (serializeLoad r (serializeSave s 0) 0).nestState = s.nestState
    ∧ (serializeLoad r (serializeSave s 0) 0).workingSets = s.workingSets
    ∧ (serializeLoad r (serializeSave s 0) 0).workingSetsComputed
      = s.workingSetsComputed
    ∧ serializeSave s v = emptyArchive
    ∧ serializeLoad r (serializeSave s v) v = r := by
  refine ⟨rfl, rfl, rfl, ?_, ?_⟩ <;> simp [serializeSave, serializeLoad, hv]

theorem serialize_version_zero_only_witness :
    (1 : Nat) ≠ 0
    ∧ ((serializeLoad initialState (serializeSave initialState 0) 0).nestState
        = initialState.nestState
      ∧ (serializeLoad initialState (serializeSave initialState 0) 0).workingSets
        = initialState.workingSets
      ∧ (serializeLoad initialState (serializeSave initialState 0) 0).workingSetsComputed
        = initialState.workingSetsComputed
      ∧ serializeSave initialState 1 = emptyArchive
      ∧ serializeLoad initialState (serializeSave initialState 1) 1
        = initialState) :=
  ⟨by decide, serialize_version_zero_only initialState initialState 1 (by decide)⟩

lemma req_mono {α : Type} [DecidableEq α] {d₁ d₂ : List (Finset α)}
    (hlen : d₁.length ≤ d₂.length)
    (hsub : ∀ e, d₁.getD e ∅ ⊆ d₂.getD e ∅) (p : α) :
    req d₁ p ⊆ req d₂ p := by
  intro e he
  obtain ⟨he1, he2⟩ := Finset.mem_filter.mp he
  exact Finset.mem_filter.mpr
    ⟨Finset.mem_range.mpr (Nat.lt_of_lt_of_le (Finset.mem_range.mp he1) hlen),
      hsub e he2⟩

/-- C9: the link-transfer hop accounting is monotone: for a fixed
multicast point, enlarging the per-element spatial deltas (hence the set
of spatial elements sharing the point) never decreases the reported
cumulative hop count; the estimator itself is a pure function of the
deltas. -/
theorem hop_count_monotone {α : Type} [DecidableEq α] (h : Nat)
    (d₁ d₂ : List (Finset α)) (p : α)
    (hlen : d₁.length ≤ d₂.length)
    (hsub : ∀ e, d₁.getD e ∅ ⊆ d₂.getD e ∅) :
    pointHops h d₁ p ≤ pointHops h d₂ p :=
  Finset.sup_mono (req_mono hlen hsub p)

theorem hop_count_monotone_witness :
    (([{5}] : List (Finset Nat)).length
      ≤ ([{5}, {5}] : List (Finset Nat)).length)
    ∧ (∀ e, ([{5}] : List (Finset Nat)).getD e ∅
        ⊆ ([{5}, {5}] : List (Finset Nat)).getD e ∅)
    ∧ pointHops 2 ([{5}] : List (Finset Nat)) 5
      ≤ pointHops 2 ([{5}, {5}] : List (Finset Nat)) 5 := by
  have hsub : ∀ e, ([{5}] : List (Finset Nat)).getD e ∅
      ⊆ ([{5}, {5}] : List (Finset Nat)).getD e ∅ := by
    intro e
    match e with
    | 0 => exact Finset.Subset.refl _
    | Nat.succ n =>
      rw [List.getD_eq_default]
      · exact Finset.empty_subset _
      · simp
  exact ⟨by decide, hsub,
    hop_count_monotone 2 [{5}] [{5}, {5}] 5 (by decide) hsub⟩

lemma getD_pairwise_disjoint {α : Type} [DecidableEq α]
    {ds : List (Finset α)} (hd : ds.Pairwise Disjoint) {e f : Nat}
    (he : e < ds.length) (hf : f < ds.length) (hne : e ≠ f) :
    Disjoint (ds.getD e ∅) (ds.getD f ∅) := by
  rw [List.getD_eq_getElem _ _ he, List.getD_eq_getElem _ _ hf]
  rcases Nat.lt_or_ge e f with hlt | hge
  · exact List.pairwise_iff_getElem.mp hd e f he hf hlt
  · have hlt : f < e := by omega
    exact (List.pairwise_iff_getElem.mp hd f e hf he hlt).symm

lemma multicastDeg_eq_one {α : Type} [DecidableEq α]
    {ds : List (Finset α)} (hd : ds.Pairwise Disjoint) {p : α}
    (hp : p ∈ unionDeltas ds) : multicastDeg ds p = 1 := by
  obtain ⟨d, hdm, hpd⟩ := mem_unionDeltas.mp hp
  obtain ⟨e, he, hge⟩ := List.mem_iff_getElem.mp hdm
  have hgetD : ds.getD e ∅ = d := by
    rw [List.getD_eq_getElem _ _ he, hge]
  have hreq : req ds p = {e} := by
    ext f
    simp only [req, Finset.mem_filter, Finset.mem_range, Finset.mem_singleton]
    constructor
    · rintro ⟨hf, hpf⟩
      by_contra hne
      exact Finset.disjoint_left.mp
        (getD_pairwise_disjoint hd hf he hne) hpf
        (by rw [hgetD]; exact hpd)
    · rintro rfl
      exact ⟨he, by rw [hgetD]; exact hpd⟩
  rw [multicastDeg, hreq, Finset.card_singleton]

lemma card_unionDeltas {α : Type} [DecidableEq α] {ds : List (Finset α)}
    (hd : ds.Pairwise Disjoint) :
    (unionDeltas ds).card = (ds.map Finset.card).sum := by
  induction ds with
  | nil => simp [unionDeltas]
  | cons d ds ih =>
    obtain ⟨hhead, htail⟩ := List.pairwise_cons.mp hd
    have hdisj : Disjoint d (unionDeltas ds) := by
      rw [Finset.disjoint_left]
      intro a ha hu
      obtain ⟨d', hd', ha'⟩ := mem_unionDeltas.mp hu
      exact Finset.disjoint_left.mp (hhead d' hd') ha ha'
    rw [show unionDeltas (d :: ds) = d ∪ unionDeltas ds from rfl,
      Finset.card_union_of_disjoint hdisj, ih htail]
    simp

/-- C4 counterexample: a fully multicast pattern where both of the two
spatial elements touch exactly the same two-point set.  The multicast
factor is 2 (= N) and the scatter factor is 1 as the claim says, but the
access count charged to the parent storage level is 2 — the number of
distinct points in the shared set — not 1 as claimed. -/
theorem multicast_accesses_counterexample :
    (([{0, 1}, {0, 1}] : List (Finset Nat)).getD 0 ∅
      = ([{0, 1}, {0, 1}] : List (Finset Nat)).getD 1 ∅)
    ∧ (∀ p ∈ unionDeltas ([{0, 1}, {0, 1}] : List (Finset Nat)),
        multicastDeg ([{0, 1}, {0, 1}] : List (Finset Nat)) p = 2)
    ∧ scatterAt ([{0, 1}, {0, 1}] : List (Finset Nat)) 2 = 1
    ∧ parentAccesses ([{0, 1}, {0, 1}] : List (Finset Nat)) = 2 := by
  decide

/-- C4 amended: for a spatial level with fanout `N ≥ 1` in accurate
multicast mode: if all `N` elements touch exactly the same non-empty
point set `S`, the scatter factor is 1, every shared point has multicast
factor `N`, and the access count charged to the parent storage level is
the number of distinct points of `S` (so 1 exactly when the elements
share a single point); if the elements touch pairwise-disjoint point
sets, every point has multicast factor 1 and the parent is charged once
per distinct point (`N` exactly when each element touches a single
point). -/
theorem multicast_scatter_accurate {α : Type} [DecidableEq α]
    (S : Finset α) (N : Nat) (hN : 1 ≤ N) (hS : S.Nonempty)
    (ds : List (Finset α)) (hd : ds.Pairwise Disjoint) :
    scatterAt (List.replicate N S) N = 1
    ∧ (∀ p ∈ unionDeltas (List.replicate N S),
        multicastDeg (List.replicate N S) p = N)
    ∧ parentAccesses (List.replicate N S) = S.card
    ∧ (∀ p ∈ unionDeltas ds, multicastDeg ds p = 1)
    ∧ parentAccesses ds = (ds.map Finset.card).sum := by
  have hU : unionDeltas (List.replicate N S) = S := unionDeltas_replicate S N hN
  have hdeg : ∀ p ∈ S, multicastDeg (List.replicate N S) p = N := by
    intro p hp
    rw [multicastDeg, req_replicate hp, Finset.card_range]
  refine ⟨?_, ?_, ?_, ?_, ?_⟩
  · rw [scatterAt, hU, Finset.filter_true_of_mem (fun p hp => hdeg p hp)]
    have himg : S.image (req (List.replicate N S)) = {Finset.range N} := by
      ext E
      simp only [Finset.mem_image, Finset.mem_singleton]
      constructor
      · rintro ⟨p, hp, rfl⟩
        exact req_replicate hp N
      · intro hE
        obtain ⟨p, hp⟩ := hS
        exact ⟨p, hp, by rw [req_replicate hp, hE]⟩
    rw [himg, Finset.card_singleton]
  · rw [hU]
    exact hdeg
  · rw [parentAccesses, List.length_replicate,
      Finset.sum_eq_single_of_mem (N - 1)
        (Finset.mem_range.mpr (by omega)) ?side]
    · rw [show N - 1 + 1 = N from by omega, accessesAt, hU,
        Finset.filter_true_of_mem (fun p hp => hdeg p hp)]
    case side =>
      intro k hk hkne
      have hk' := Finset.mem_range.mp hk
      rw [accessesAt, hU, Finset.filter_false_of_mem, Finset.card_empty]
      intro p hp hcontra
      rw [hdeg p hp] at hcontra
      omega
  · exact fun p hp => multicastDeg_eq_one hd hp
  · cases ds with
    | nil => simp [parentAccesses]
    | cons d0 dtl =>
      rw [parentAccesses,
        Finset.sum_eq_single_of_mem 0
          (Finset.mem_range.mpr (by simp)) ?side2]
      · rw [accessesAt,
          Finset.filter_true_of_mem
            (fun p hp => multicastDeg_eq_one hd hp),
          card_unionDeltas hd]
      case side2 =>
        intro k hk hkne
        rw [accessesAt, Finset.filter_false_of_mem, Finset.card_empty]
        intro p hp hcontra
        rw [multicastDeg_eq_one hd hp] at hcontra
        omega

theorem multicast_scatter_accurate_witness :
    (1 : Nat) ≤ 2 ∧ ({3} : Finset Nat).Nonempty
    ∧ ([{1}, {2}] : List (Finset Nat)).Pairwise Disjoint
    ∧ (scatterAt (List.replicate 2 ({3} : Finset Nat)) 2 = 1
      ∧ (∀ p ∈ unionDeltas (List.replicate 2 ({3} : Finset Nat)),
          multicastDeg (List.replicate 2 ({3} : Finset Nat)) p = 2)
      ∧ parentAccesses (List.replicate 2 ({3} : Finset Nat))
        = ({3} : Finset Nat).card
      ∧ (∀ p ∈ unionDeltas ([{1}, {2}] : List (Finset Nat)),
          multicastDeg ([{1}, {2}] : List (Finset Nat)) p = 1)
      ∧ parentAccesses ([{1}, {2}] : List (Finset Nat))
        = (([{1}, {2}] : List (Finset Nat)).map Finset.card).sum) :=
  ⟨by decide, by decide, by decide,
    multicast_scatter_accurate ({3} : Finset Nat) 2 (by decide) (by decide)
      [{1}, {2}] (by decide)⟩

end NestAnalysisModel
